import Mathlib

/-!
Verification of the SWIFT per-worker priority task queue (`src/queue.c`).

The queue stores task indices (`tid`) into an externally owned task array,
arranged as a binary max-heap keyed by the tasks' weights.  Weights are
only ever compared, never combined, so the C `float` weight is embedded as
an integer-valued weight function `w : Nat → Int` on task indices.  The
per-task `task_lock` trylock and the `task_overlap` affinity score are
external collaborators and are embedded as parameters (`canLock`,
`score`).  The concurrent incoming DEQ is modelled sequentially: the ring
buffer's pending entries appear as a FIFO list, which is how a single
drain observes them.  Loops are embedded as structurally recursive
functions on an explicit iteration bound (`fuel`), chosen at each call
site to dominate the loop's iteration count, so that all definitions
reduce in the kernel.
-/

namespace SwiftQueue

/-- Entry of the sliding candidate window in `queue_gettask`: mirrors the
anonymous `struct { int ind, tid; float score; }` in the source. -/
structure WEntry where
  ind : Nat
  tid : Nat
  score : Int
deriving Repr, DecidableEq, Inhabited

/-- The three-assignment exchange used by both heap operations:
position `i` receives the old value of position `j` and vice versa. -/
def listSwap (l : List Nat) (i j : Nat) : List Nat :=
  (l.set i (l.getD j 0)).set j (l.getD i 0)

/-- Loop of `queue_bubble_up` (queue.c:56-66): while not at the root, stop
if the parent is strictly heavier than the moving entry's weight `wv`,
otherwise swap with the parent and continue there.  `fuel` bounds the
iteration count; since `(ind - 1) / 2 < ind`, `fuel = ind` suffices. -/
def bubbleUpFuel (w : Nat → Int) (wv : Int) : Nat → List Nat → Nat → List Nat × Nat
  | 0, l, ind => (l, ind)
  | fuel + 1, l, ind =>
    if ind = 0 then (l, ind)
    else
      let parent := (ind - 1) / 2
      if wv < w (l.getD parent 0) then (l, ind)
      else bubbleUpFuel w wv fuel (listSwap l ind parent) parent

/-- `queue_bubble_up` (queue.c:49-69): push the entry at `ind` up the heap;
its weight is read once at entry.  Returns the new array and the entry's
new index. -/
def queue_bubble_up (w : Nat → Int) (l : List Nat) (ind : Nat) : List Nat × Nat :=
  bubbleUpFuel w (w (l.getD ind 0)) ind l ind

/-- Loop of `queue_sift_down` (queue.c:88-106): while the entry at `ind`
has a child below `qcount`, pick the right child exactly when it is
strictly heavier than the left, and swap down exactly when the picked
child is strictly heavier than the moving entry's weight `wv`.  Each step
moves to a strictly larger index below `qcount`, so `fuel = qcount`
suffices. -/
def siftDownFuel (w : Nat → Int) (wv : Int) (qcount : Nat) :
    Nat → List Nat → Nat → List Nat × Nat
  | 0, l, ind => (l, ind)
  | fuel + 1, l, ind =>
    let child0 := 2 * ind + 1
    if qcount ≤ child0 then (l, ind)
    else
      let child :=
        if child0 + 1 < qcount ∧ w (l.getD child0 0) < w (l.getD (child0 + 1) 0)
        then child0 + 1 else child0
      if wv < w (l.getD child 0) then
        siftDownFuel w wv qcount fuel (listSwap l child ind) child
      else (l, ind)

/-- `queue_sift_down` (queue.c:80-109): push the entry at `ind` down the
heap of `l.length` entries; its weight is read once at entry. -/
def queue_sift_down (w : Nat → Int) (l : List Nat) (ind : Nat) : List Nat × Nat :=
  siftDownFuel w (w (l.getD ind 0)) l.length l.length l ind

/-- Queue state: the heap array `tid` (its length is the source's
`count`), the backing capacity `size`, and the pending entries of the
incoming DEQ in the order a drain consumes them. -/
structure Queue where
  tid : List Nat
  size : Nat
  incoming : List Nat
deriving Repr, DecidableEq

/-- One iteration of the drain loop in `queue_get_incoming`
(queue.c:121-156): grow the backing array geometrically when full, drop
the task at the end of the heap, and re-heap by bubbling it up. -/
def drainOne (w : Nat → Int) (grow : Nat) (q : Queue) (offset : Nat) : Queue :=
  let size := if q.tid.length = q.size then q.size * grow else q.size
  let l := q.tid ++ [offset]
  { q with tid := (queue_bubble_up w l (l.length - 1)).1, size := size }

/-- Drain loop over the pending incoming entries, first staged first. -/
def drainList (w : Nat → Int) (grow : Nat) : Queue → List Nat → Queue
  | q, [] => q
  | q, offset :: rest => drainList w grow (drainOne w grow q offset) rest

/-- `queue_get_incoming` (queue.c:116-157): enqueue every staged task of
the incoming DEQ into the heap. -/
def queue_get_incoming (w : Nat → Int) (grow : Nat) (q : Queue) : Queue :=
  drainList w grow { q with incoming := [] } q.incoming

/-- `queue_insert` (queue.c:165-188), sequential model: the successful
compare-and-swap stores the task index in the incoming DEQ; the
drain-assist loop only helps a consumer along and does not change the
producer's outcome. -/
def queue_insert (q : Queue) (t : Nat) : Queue :=
  { q with incoming := q.incoming ++ [t] }

/-- `queue_init` (queue.c:196-222): empty heap at the initial capacity,
empty incoming DEQ. -/
def queue_init (sizeinit : Nat) : Queue :=
  { tid := [], size := sizeinit, incoming := [] }

/-- The `ind_max` scan in `queue_gettask` (queue.c:277-279 and 300-302):
`i` runs over the window from 1, keeping the index of the strictly
largest score seen.  `fuel` counts the remaining iterations. -/
def idxMaxFuel (wnd : List WEntry) : Nat → Nat → Nat → Nat
  | 0, _, indMax => indMax
  | fuel + 1, i, indMax =>
    idxMaxFuel wnd fuel (i + 1)
      (if (wnd.getD indMax default).score < (wnd.getD i default).score then i else indMax)

/-- Index of the best-scoring window entry (first on ties). -/
def idxMax (wnd : List WEntry) : Nat :=
  idxMaxFuel wnd (wnd.length - 1) 1 0

/-- Window removal in the fallback loop (queue.c:309-310):
`window_count -= 1; window[ind_max] = window[window_count];`. -/
def removeSwap (wnd : List WEntry) (im : Nat) : List WEntry :=
  ((wnd.set im (wnd.getD (wnd.length - 1) default)).take (wnd.length - 1))

/-- Forward scan of `queue_gettask` (queue.c:269-295): `k` runs over the
heap entries; the first `sw` fill the window, afterwards each step tries
to lock the best-scoring window member, stopping on success and otherwise
replacing it with entry `k`.  `fuel` counts the remaining iterations (the
call site passes the heap length).  The second result component is
instrumentation recording each task index passed to `task_lock`, which
the source discards. -/
def scanFuel (score : Nat → Int) (canLock : Nat → Bool) (qtid : List Nat) (sw : Nat) :
    Nat → Nat → List WEntry → (List WEntry ⊕ Nat × Nat) × List Nat
  | 0, _, wnd => (Sum.inl wnd, [])
  | fuel + 1, k, wnd =>
    if k < sw then
      scanFuel score canLock qtid sw fuel (k + 1)
        (wnd ++ [⟨k, qtid.getD k 0, score (qtid.getD k 0)⟩])
    else
      let im := idxMax wnd
      let e := wnd.getD im default
      if canLock e.tid then (Sum.inr (e.tid, e.ind), [e.tid])
      else
        let r := scanFuel score canLock qtid sw fuel (k + 1)
          (wnd.set im ⟨k, qtid.getD k 0, score (qtid.getD k 0)⟩)
        (r.1, e.tid :: r.2)

/-- Fallback loop of `queue_gettask` (queue.c:298-313): while the window
is non-empty, try to lock its best-scoring member, removing it on
failure.  `fuel` counts the remaining iterations (the call site passes
the window length).  The second result component is the same `task_lock`
instrumentation as in `scanFuel`. -/
def fallbackFuel (canLock : Nat → Bool) : Nat → List WEntry → Option (Nat × Nat) × List Nat
  | 0, _ => (none, [])
  | fuel + 1, wnd =>
    if wnd.length = 0 then (none, [])
    else
      let im := idxMax wnd
      let e := wnd.getD im default
      if canLock e.tid then (some (e.tid, e.ind), [e.tid])
      else
        let r := fallbackFuel canLock fuel (removeSwap wnd im)
        (r.1, e.tid :: r.2)

/-- Candidate selection in `queue_gettask`: the forward scan over the
drained heap followed, if no task was claimed, by the fallback loop over
whatever is left in the window.  Returns the claimed `(tid, ind)` pair if
any, together with the list of task indices on which `task_lock` was
attempted. -/
def selectTask (score : Nat → Int) (canLock : Nat → Bool) (sw : Nat) (qtid : List Nat) :
    Option (Nat × Nat) × List Nat :=
  match scanFuel score canLock qtid sw qtid.length 0 [] with
  | (Sum.inr r, tried) => (some r, tried)
  | (Sum.inl wnd, tried) =>
    let r := fallbackFuel canLock wnd.length wnd
    (r.1, tried ++ r.2)

/-- Removal step of `queue_gettask` (queue.c:319-329): decrement the
count; if the claimed slot was not the last one, move the last entry into
it and restore the heap property by `bubble_up` then `sift_down`. -/
def removeAt (w : Nat → Int) (l : List Nat) (ind : Nat) : List Nat :=
  let qcount := l.length - 1
  if ind < qcount then
    let l0 := (l.set ind (l.getD qcount 0)).take qcount
    let p := queue_bubble_up w l0 ind
    (queue_sift_down w p.1 p.2).1
  else l.take qcount

/-- `queue_gettask` (queue.c:231-346).  `blocking` is the caller's flag;
`lockFree` models whether the non-blocking `lock_trylock` on the queue
lock would succeed (a blocking `lock_lock` either succeeds or aborts the
process).  Drain the incoming DEQ, return none on an empty heap, select a
lockable candidate through the window scan, and remove it from the heap. -/
def queue_gettask (w score : Nat → Int) (canLock : Nat → Bool) (grow sw : Nat)
    (blocking lockFree : Bool) (q : Queue) : Option Nat × Queue :=
  if blocking = false ∧ lockFree = false then (none, q)
  else
    let q1 := queue_get_incoming w grow q
    if q1.tid.length = 0 then (none, q1)
    else
      match (selectTask score canLock sw q1.tid).1 with
      | some (tid, ind) => (some tid, { q1 with tid := removeAt w q1.tid ind })
      | none => (none, q1)

/-- The max-heap property checked by the SWIFT_DEBUG_CHECKS block
(queue.c:335-338): every non-root entry is at most as heavy as its
parent. -/
def isHeap (w : Nat → Int) (l : List Nat) : Prop :=
  ∀ k, k < l.length → 0 < k → w (l.getD k 0) ≤ w (l.getD ((k - 1) / 2) 0)

instance (w : Nat → Int) (l : List Nat) : Decidable (isHeap w l) := by
  unfold isHeap; exact Nat.decidableBallLT _ _

/-- Bubble-up invariant for a freshly appended entry at `ind`: the heap
property holds on every edge not pointing at `ind`, and the children of
`ind`, if any, are already dominated by `ind`'s parent. -/
def upInv (w : Nat → Int) (l : List Nat) (ind : Nat) : Prop :=
  (∀ k, k < l.length → 0 < k → k ≠ ind → w (l.getD k 0) ≤ w (l.getD ((k - 1) / 2) 0)) ∧
  (0 < ind → ∀ c, c < l.length → (c - 1) / 2 = ind →
    w (l.getD c 0) ≤ w (l.getD ((ind - 1) / 2) 0))

/-- Bubble-up invariant for a replaced entry at `ind` (removal path): the
heap property holds on every edge not touching `ind`, and the children of
`ind`, if any, are dominated by `ind`'s parent. -/
def holeInv (w : Nat → Int) (l : List Nat) (ind : Nat) : Prop :=
  (∀ k, k < l.length → 0 < k → k ≠ ind → (k - 1) / 2 ≠ ind →
    w (l.getD k 0) ≤ w (l.getD ((k - 1) / 2) 0)) ∧
  (0 < ind → ∀ c, c < l.length → (c - 1) / 2 = ind →
    w (l.getD c 0) ≤ w (l.getD ((ind - 1) / 2) 0))

/-- Sift-down invariant: the heap property holds on every edge not leaving
`ind`, and the children of `ind`, if any, are dominated by `ind`'s
parent. -/
def downInv (w : Nat → Int) (l : List Nat) (ind : Nat) : Prop :=
  (∀ k, k < l.length → 0 < k → (k - 1) / 2 ≠ ind →
    w (l.getD k 0) ≤ w (l.getD ((k - 1) / 2) 0)) ∧
  (0 < ind → ∀ c, c < l.length → (c - 1) / 2 = ind →
    w (l.getD c 0) ≤ w (l.getD ((ind - 1) / 2) 0))

/-- Loop of the sift-down procedure as the spec claims it, for refinement
comparison: "select the child with the strictly larger weight (right
child wins ties against left)", i.e. the right child is kept whenever it
is at least as heavy as the left, and "swap down if that child's weight
is strictly greater than the current entry's, else stop". -/
def siftDownClaimFuel (w : Nat → Int) (wv : Int) (qcount : Nat) :
    Nat → List Nat → Nat → List Nat × Nat
  | 0, l, ind => (l, ind)
  | fuel + 1, l, ind =>
    let child0 := 2 * ind + 1
    if qcount ≤ child0 then (l, ind)
    else
      let child :=
        if child0 + 1 < qcount ∧ w (l.getD child0 0) ≤ w (l.getD (child0 + 1) 0)
        then child0 + 1 else child0
      if wv < w (l.getD child 0) then
        siftDownClaimFuel w wv qcount fuel (listSwap l child ind) child
      else (l, ind)

/-- Sift-down as the spec's words describe it (right child wins ties). -/
def siftDownClaim (w : Nat → Int) (l : List Nat) (ind : Nat) : List Nat × Nat :=
  siftDownClaimFuel w (w (l.getD ind 0)) l.length l.length l ind

/-- Loop of the sift-down procedure as amended: the child with the
strictly larger weight is selected, the left child winning ties, and the
entry swaps down exactly when that child is strictly heavier. -/
def siftDownAmendFuel (w : Nat → Int) (wv : Int) (qcount : Nat) :
    Nat → List Nat → Nat → List Nat × Nat
  | 0, l, ind => (l, ind)
  | fuel + 1, l, ind =>
    let child0 := 2 * ind + 1
    if qcount ≤ child0 then (l, ind)
    else
      let child :=
        if child0 + 1 < qcount then
          if w (l.getD (child0 + 1) 0) ≤ w (l.getD child0 0) then child0 else child0 + 1
        else child0
      if wv < w (l.getD child 0) then
        siftDownAmendFuel w wv qcount fuel (listSwap l child ind) child
      else (l, ind)

/-- Sift-down as the amended claim describes it (left child wins ties). -/
def siftDownAmend (w : Nat → Int) (l : List Nat) (ind : Nat) : List Nat × Nat :=
  siftDownAmendFuel w (w (l.getD ind 0)) l.length l.length l ind

/-- Loop of bubble-up as the spec's words describe it: "while the entry is
not the root and its weight is ≥ its parent's weight, swap with parent
and continue". -/
def bubbleUpSpecFuel (w : Nat → Int) (wv : Int) : Nat → List Nat → Nat → List Nat × Nat
  | 0, l, ind => (l, ind)
  | fuel + 1, l, ind =>
    if 0 < ind ∧ w (l.getD ((ind - 1) / 2) 0) ≤ wv then
      bubbleUpSpecFuel w wv fuel (listSwap l ind ((ind - 1) / 2)) ((ind - 1) / 2)
    else (l, ind)

/-- Bubble-up as the spec's words describe it. -/
def bubbleUpSpec (w : Nat → Int) (l : List Nat) (ind : Nat) : List Nat × Nat :=
  bubbleUpSpecFuel w (w (l.getD ind 0)) ind l ind

/-- Operations of a single-queue history: a producer insert, an explicit
drain, and a consumer `queue_gettask` with blocking semantics. -/
inductive QOp where
  | ins (t : Nat)
  | drain
  | get
deriving Repr, DecidableEq

/-- One operation applied to a queue state paired with the list of tasks
returned by `queue_gettask` so far. -/
def stepQ (w score : Nat → Int) (canLock : Nat → Bool) (grow sw : Nat) :
    Queue × List Nat → QOp → Queue × List Nat
  | (q, out), QOp.ins t => (queue_insert q t, out)
  | (q, out), QOp.drain => (queue_get_incoming w grow q, out)
  | (q, out), QOp.get =>
    match queue_gettask w score canLock grow sw true true q with
    | (some t, q1) => (q1, out ++ [t])
    | (none, q1) => (q1, out)

/-- Run a history of operations from a starting state. -/
def runQ (w score : Nat → Int) (canLock : Nat → Bool) (grow sw : Nat)
    (st : Queue × List Nat) (ops : List QOp) : Queue × List Nat :=
  ops.foldl (stepQ w score canLock grow sw) st

/-- Number of insert operations in a history. -/
def countIns (ops : List QOp) : Nat :=
  ops.countP (fun op => match op with | QOp.ins _ => true | _ => false)

/-- Contribution of one operation to the insert count. -/
def insCount : QOp → Nat
  | QOp.ins _ => 1
  | QOp.drain => 0
  | QOp.get => 0

/-- Weight function of the spec's retrieval-order scenario: tasks
0, 1, 2, 3 carry weights 5, 1, 9, 3. -/
def wScenario : Nat → Int := fun i => ([5, 1, 9, 3] : List Int).getD i 0

/-- Weight function exhibiting the sift-down tie: tasks 0, 1, 2 carry
weights 1, 5, 5, so the two children of the root have equal weight. -/
def wTie : Nat → Int := fun i => ([1, 5, 5] : List Int).getD i 0

/-- Overlap score of the scenario: no previous task, every score zero. -/
def scoreZero : Nat → Int := fun _ => 0

/-- Task trylock that always succeeds (no task is locked by another worker). -/
def lockAll : Nat → Bool := fun _ => true

theorem getD_set_self (l : List Nat) (i a : Nat) (h : i < l.length) :
    (l.set i a).getD i 0 = a := by
  simp [List.getD_eq_getElem?_getD, List.getElem?_set_self h]

theorem getD_set_ne (l : List Nat) (i j a : Nat) (h : i ≠ j) :
    (l.set i a).getD j 0 = l.getD j 0 := by
  simp [List.getD_eq_getElem?_getD, List.getElem?_set_ne h]

theorem getD_take_lt (l : List Nat) (k m : Nat) (h : k < m) :
    (l.take m).getD k 0 = l.getD k 0 := by
  simp [List.getD_eq_getElem?_getD, List.getElem?_take_of_lt h]

theorem getD_append_lt (l l' : List Nat) (k : Nat) (h : k < l.length) :
    (l ++ l').getD k 0 = l.getD k 0 :=
  List.getD_append l l' 0 k h

theorem getD_append_len (l : List Nat) (x : Nat) :
    (l ++ [x]).getD l.length 0 = x := by
  rw [List.getD_append_right l [x] 0 l.length (Nat.le_refl _)]
  simp

theorem getD_mem (l : List Nat) (k : Nat) (h : k < l.length) :
    l.getD k 0 ∈ l := by
  rw [List.getD_eq_getElem l 0 h]
  exact List.getElem_mem h

theorem length_listSwap (l : List Nat) (i j : Nat) :
    (listSwap l i j).length = l.length := by
  simp [listSwap]

theorem listSwap_getD_fst (l : List Nat) (i j : Nat) (hi : i < l.length) (hij : i ≠ j) :
    (listSwap l i j).getD i 0 = l.getD j 0 := by
  unfold listSwap
  rw [getD_set_ne _ j i _ (fun h => hij h.symm), getD_set_self _ _ _ hi]

theorem listSwap_getD_snd (l : List Nat) (i j : Nat) (hj : j < l.length) (hij : i ≠ j) :
    (listSwap l i j).getD j 0 = l.getD i 0 := by
  unfold listSwap
  rw [getD_set_self _ _ _ (by simpa using hj)]

theorem listSwap_getD_other (l : List Nat) (i j k : Nat) (hki : k ≠ i) (hkj : k ≠ j) :
    (listSwap l i j).getD k 0 = l.getD k 0 := by
  unfold listSwap
  rw [getD_set_ne _ j k _ (fun h => hkj h.symm), getD_set_ne _ i k _ (fun h => hki h.symm)]

theorem cons_set_perm (xs : List Nat) (m x : Nat) (h : m < xs.length) :
    (xs.getD m 0 :: xs.set m x).Perm (x :: xs) := by
  induction xs generalizing m with
  | nil => simp at h
  | cons y ys ih =>
    cases m with
    | zero => simpa using List.Perm.swap x y ys
    | succ k =>
      have hk : k < ys.length := by simpa using h
      have h1 : (ys.getD k 0 :: y :: ys.set k x).Perm (y :: ys.getD k 0 :: ys.set k x) :=
        List.Perm.swap _ _ _
      have h2 : (y :: ys.getD k 0 :: ys.set k x).Perm (y :: x :: ys) :=
        List.Perm.cons y (ih k hk)
      have h3 : (y :: x :: ys).Perm (x :: y :: ys) := List.Perm.swap _ _ _
      simpa using (h1.trans h2).trans h3

theorem listSwap_perm (l : List Nat) (i j : Nat) (hi : i < l.length) (hj : j < l.length) :
    (listSwap l i j).Perm l := by
  induction l generalizing i j with
  | nil => simp at hi
  | cons x xs ih =>
    cases i with
    | zero =>
      cases j with
      | zero => simp [listSwap]
      | succ m =>
        have hm : m < xs.length := by simpa using hj
        have : listSwap (x :: xs) 0 (m + 1) = xs.getD m 0 :: xs.set m x := by
          simp [listSwap]
        rw [this]
        exact cons_set_perm xs m x hm
    | succ n =>
      have hn : n < xs.length := by simpa using hi
      cases j with
      | zero =>
        have : listSwap (x :: xs) (n + 1) 0 = xs.getD n 0 :: xs.set n x := by
          simp [listSwap]
        rw [this]
        exact cons_set_perm xs n x hn
      | succ m =>
        have hm : m < xs.length := by simpa using hj
        have : listSwap (x :: xs) (n + 1) (m + 1) = x :: listSwap xs n m := by
          simp [listSwap]
        rw [this]
        exact List.Perm.cons x (ih n m hn hm)

theorem bubbleUpFuel_succ (w : Nat → Int) (wv : Int) (fuel : Nat) (l : List Nat) (ind : Nat) :
    bubbleUpFuel w wv (fuel + 1) l ind =
      if ind = 0 then (l, ind)
      else if wv < w (l.getD ((ind - 1) / 2) 0) then (l, ind)
      else bubbleUpFuel w wv fuel (listSwap l ind ((ind - 1) / 2)) ((ind - 1) / 2) := rfl

theorem siftDownFuel_succ (w : Nat → Int) (wv : Int) (qcount fuel : Nat)
    (l : List Nat) (ind : Nat) :
    siftDownFuel w wv qcount (fuel + 1) l ind =
      if qcount ≤ 2 * ind + 1 then (l, ind)
      else
        let child :=
          if 2 * ind + 1 + 1 < qcount ∧ w (l.getD (2 * ind + 1) 0) < w (l.getD (2 * ind + 1 + 1) 0)
          then 2 * ind + 1 + 1 else 2 * ind + 1
        if wv < w (l.getD child 0) then
          siftDownFuel w wv qcount fuel (listSwap l child ind) child
        else (l, ind) := rfl

theorem bubbleUpFuel_length (w : Nat → Int) (wv : Int) :
    ∀ fuel l ind, (bubbleUpFuel w wv fuel l ind).1.length = l.length := by
  intro fuel
  induction fuel with
  | zero => intro l ind; rfl
  | succ fuel ih =>
    intro l ind
    rw [bubbleUpFuel_succ]
    by_cases h0 : ind = 0
    · rw [if_pos h0]
    · by_cases hlt : wv < w (l.getD ((ind - 1) / 2) 0)
      · rw [if_neg h0, if_pos hlt]
      · rw [if_neg h0, if_neg hlt, ih, length_listSwap]

theorem bubbleUpFuel_ind_le (w : Nat → Int) (wv : Int) :
    ∀ fuel l ind, (bubbleUpFuel w wv fuel l ind).2 ≤ ind := by
  intro fuel
  induction fuel with
  | zero => intro l ind; exact Nat.le_refl _
  | succ fuel ih =>
    intro l ind
    rw [bubbleUpFuel_succ]
    by_cases h0 : ind = 0
    · rw [if_pos h0]
    · by_cases hlt : wv < w (l.getD ((ind - 1) / 2) 0)
      · rw [if_neg h0, if_pos hlt]
      · rw [if_neg h0, if_neg hlt]
        exact Nat.le_trans (ih _ _) (by omega)

theorem bubbleUpFuel_perm (w : Nat → Int) (wv : Int) :
    ∀ fuel l ind, ind < l.length → ((bubbleUpFuel w wv fuel l ind).1).Perm l := by
  intro fuel
  induction fuel with
  | zero => intro l ind _; exact List.Perm.refl l
  | succ fuel ih =>
    intro l ind hi
    rw [bubbleUpFuel_succ]
    by_cases h0 : ind = 0
    · rw [if_pos h0]
    · by_cases hlt : wv < w (l.getD ((ind - 1) / 2) 0)
      · rw [if_neg h0, if_pos hlt]
      · rw [if_neg h0, if_neg hlt]
        have hp : (ind - 1) / 2 < l.length := by omega
        have hp2 : (ind - 1) / 2 < (listSwap l ind ((ind - 1) / 2)).length := by
          rw [length_listSwap]; omega
        exact (ih _ _ hp2).trans (listSwap_perm l ind ((ind - 1) / 2) hi hp)

theorem bubbleUpFuel_entry (w : Nat → Int) (wv : Int) :
    ∀ fuel l ind, ind < l.length →
      ((bubbleUpFuel w wv fuel l ind).1).getD ((bubbleUpFuel w wv fuel l ind).2) 0 =
        l.getD ind 0 := by
  intro fuel
  induction fuel with
  | zero => intro l ind _; rfl
  | succ fuel ih =>
    intro l ind hi
    rw [bubbleUpFuel_succ]
    by_cases h0 : ind = 0
    · rw [if_pos h0]
    · by_cases hlt : wv < w (l.getD ((ind - 1) / 2) 0)
      · rw [if_neg h0, if_pos hlt]
      · rw [if_neg h0, if_neg hlt]
        have hne : ind ≠ (ind - 1) / 2 := by omega
        have hp : (ind - 1) / 2 < l.length := by omega
        have hp2 : (ind - 1) / 2 < (listSwap l ind ((ind - 1) / 2)).length := by
          rw [length_listSwap]; omega
        rw [ih _ _ hp2, listSwap_getD_snd l ind ((ind - 1) / 2) hp hne]

theorem siftDownFuel_length (w : Nat → Int) (wv : Int) (qcount : Nat) :
    ∀ fuel l ind, (siftDownFuel w wv qcount fuel l ind).1.length = l.length := by
  intro fuel
  induction fuel with
  | zero => intro l ind; rfl
  | succ fuel ih =>
    intro l ind
    rw [siftDownFuel_succ]
    by_cases hc : qcount ≤ 2 * ind + 1
    · rw [if_pos hc]
    · rw [if_neg hc]
      simp only []
      by_cases hsw : wv < w (l.getD (if 2 * ind + 1 + 1 < qcount ∧
          w (l.getD (2 * ind + 1) 0) < w (l.getD (2 * ind + 1 + 1) 0)
          then 2 * ind + 1 + 1 else 2 * ind + 1) 0)
      · rw [if_pos hsw, ih, length_listSwap]
      · rw [if_neg hsw]

theorem siftDownFuel_perm (w : Nat → Int) (wv : Int) (qcount : Nat) :
    ∀ fuel l ind, qcount ≤ l.length → ((siftDownFuel w wv qcount fuel l ind).1).Perm l := by
  intro fuel
  induction fuel with
  | zero => intro l ind _; exact List.Perm.refl l
  | succ fuel ih =>
    intro l ind hq
    rw [siftDownFuel_succ]
    by_cases hc : qcount ≤ 2 * ind + 1
    · rw [if_pos hc]
    · rw [if_neg hc]
      simp only []
      set child := if 2 * ind + 1 + 1 < qcount ∧
          w (l.getD (2 * ind + 1) 0) < w (l.getD (2 * ind + 1 + 1) 0)
          then 2 * ind + 1 + 1 else 2 * ind + 1 with hchild
      have hcb : child < qcount := by
        rw [hchild]; split
        · omega
        · omega
      by_cases hsw : wv < w (l.getD child 0)
      · rw [if_pos hsw]
        have hcl : child < l.length := by omega
        have hil : ind < l.length := by omega
        have hq2 : qcount ≤ (listSwap l child ind).length := by rw [length_listSwap]; omega
        exact (ih _ _ hq2).trans (listSwap_perm l child ind hcl hil)
      · rw [if_neg hsw]

theorem siftDownFuel_ind_lt (w : Nat → Int) (wv : Int) (qcount : Nat) :
    ∀ fuel l ind, ind < qcount → (siftDownFuel w wv qcount fuel l ind).2 < qcount := by
  intro fuel
  induction fuel with
  | zero => intro l ind h; exact h
  | succ fuel ih =>
    intro l ind h
    rw [siftDownFuel_succ]
    by_cases hc : qcount ≤ 2 * ind + 1
    · rw [if_pos hc]; exact h
    · rw [if_neg hc]
      simp only []
      set child := if 2 * ind + 1 + 1 < qcount ∧
          w (l.getD (2 * ind + 1) 0) < w (l.getD (2 * ind + 1 + 1) 0)
          then 2 * ind + 1 + 1 else 2 * ind + 1 with hchild
      have hcb : child < qcount := by
        rw [hchild]; split
        · omega
        · omega
      by_cases hsw : wv < w (l.getD child 0)
      · rw [if_pos hsw]
        exact ih _ _ hcb
      · rw [if_neg hsw]; exact h

theorem siftDownAmendFuel_succ (w : Nat → Int) (wv : Int) (qcount fuel : Nat)
    (l : List Nat) (ind : Nat) :
    siftDownAmendFuel w wv qcount (fuel + 1) l ind =
      if qcount ≤ 2 * ind + 1 then (l, ind)
      else
        let child :=
          if 2 * ind + 1 + 1 < qcount then
            if w (l.getD (2 * ind + 1 + 1) 0) ≤ w (l.getD (2 * ind + 1) 0)
            then 2 * ind + 1 else 2 * ind + 1 + 1
          else 2 * ind + 1
        if wv < w (l.getD child 0) then
          siftDownAmendFuel w wv qcount fuel (listSwap l child ind) child
        else (l, ind) := rfl

theorem bubbleUpSpecFuel_succ (w : Nat → Int) (wv : Int) (fuel : Nat)
    (l : List Nat) (ind : Nat) :
    bubbleUpSpecFuel w wv (fuel + 1) l ind =
      if 0 < ind ∧ w (l.getD ((ind - 1) / 2) 0) ≤ wv then
        bubbleUpSpecFuel w wv fuel (listSwap l ind ((ind - 1) / 2)) ((ind - 1) / 2)
      else (l, ind) := rfl

theorem siftDownFuel_eq_amend (w : Nat → Int) (wv : Int) (qcount : Nat) :
    ∀ fuel l ind, siftDownFuel w wv qcount fuel l ind = siftDownAmendFuel w wv qcount fuel l ind := by
  intro fuel
  induction fuel with
  | zero => intro l ind; rfl
  | succ fuel ih =>
    intro l ind
    rw [siftDownFuel_succ, siftDownAmendFuel_succ]
    by_cases hc : qcount ≤ 2 * ind + 1
    · rw [if_pos hc, if_pos hc]
    · rw [if_neg hc, if_neg hc]
      simp only []
      have hchild :
          (if 2 * ind + 1 + 1 < qcount ∧
              w (l.getD (2 * ind + 1) 0) < w (l.getD (2 * ind + 1 + 1) 0)
           then 2 * ind + 1 + 1 else 2 * ind + 1)
            = (if 2 * ind + 1 + 1 < qcount then
                if w (l.getD (2 * ind + 1 + 1) 0) ≤ w (l.getD (2 * ind + 1) 0)
                then 2 * ind + 1 else 2 * ind + 1 + 1
              else 2 * ind + 1) := by
        by_cases h1 : 2 * ind + 1 + 1 < qcount
        · by_cases h2 : w (l.getD (2 * ind + 1) 0) < w (l.getD (2 * ind + 1 + 1) 0)
          · rw [if_pos ⟨h1, h2⟩, if_pos h1, if_neg (not_le.mpr h2), ]
          · rw [if_neg (fun hx => h2 hx.2), if_pos h1, if_pos (not_lt.mp h2)]
        · rw [if_neg (fun hx => h1 hx.1), if_neg h1]
      rw [hchild]
      by_cases hsw : wv < w (l.getD (if 2 * ind + 1 + 1 < qcount then
          if w (l.getD (2 * ind + 1 + 1) 0) ≤ w (l.getD (2 * ind + 1) 0)
          then 2 * ind + 1 else 2 * ind + 1 + 1
        else 2 * ind + 1) 0)
      · rw [if_pos hsw, if_pos hsw, ih]
      · rw [if_neg hsw, if_neg hsw]

theorem bubbleUpFuel_eq_spec (w : Nat → Int) (wv : Int) :
    ∀ fuel l ind, bubbleUpFuel w wv fuel l ind = bubbleUpSpecFuel w wv fuel l ind := by
  intro fuel
  induction fuel with
  | zero => intro l ind; rfl
  | succ fuel ih =>
    intro l ind
    rw [bubbleUpFuel_succ, bubbleUpSpecFuel_succ]
    by_cases h0 : ind = 0
    · rw [if_pos h0, if_neg (by omega)]
    · by_cases hlt : wv < w (l.getD ((ind - 1) / 2) 0)
      · rw [if_neg h0, if_pos hlt, if_neg (fun hx => absurd hx.2 (not_le.mpr hlt))]
      · rw [if_neg h0, if_neg hlt, if_pos ⟨by omega, not_lt.mp hlt⟩, ih]

theorem bubbleUpFuel_isHeap (w : Nat → Int) (wv : Int) :
    ∀ fuel l ind, ind ≤ fuel → ind < l.length → w (l.getD ind 0) = wv →
      upInv w l ind → isHeap w (bubbleUpFuel w wv fuel l ind).1 := by
  intro fuel
  induction fuel with
  | zero =>
    intro l ind hf _ _ hInv
    have h0 : ind = 0 := Nat.le_zero.mp hf
    intro k hk hk0
    exact hInv.1 k hk hk0 (by omega)
  | succ fuel ih =>
    intro l ind hf hi hwv hInv
    rw [bubbleUpFuel_succ]
    by_cases h0 : ind = 0
    · rw [if_pos h0]
      intro k hk hk0
      exact hInv.1 k hk hk0 (by omega)
    · by_cases hlt : wv < w (l.getD ((ind - 1) / 2) 0)
      · rw [if_neg h0, if_pos hlt]
        intro k hk hk0
        by_cases hki : k = ind
        · subst hki
          rw [hwv]
          exact le_of_lt hlt
        · exact hInv.1 k hk hk0 hki
      · rw [if_neg h0, if_neg hlt]
        have hple : w (l.getD ((ind - 1) / 2) 0) ≤ wv := not_lt.mp hlt
        set p := (ind - 1) / 2 with hp
        have hpi : p < ind := by omega
        have hpl : p < l.length := by omega
        apply ih (listSwap l ind p) p (by omega)
          (by rw [length_listSwap]; omega)
          (by rw [listSwap_getD_snd l ind p hpl (by omega)]; exact hwv)
        constructor
        · intro k hk hk0 hkp
          rw [length_listSwap] at hk
          by_cases hki : k = ind
          · subst hki
            rw [listSwap_getD_fst l k p (by omega) (by omega)]
            have hpar : (k - 1) / 2 = p := hp.symm
            rw [hpar, listSwap_getD_snd l k p hpl (by omega), hwv]
            exact hple
          · have hgk : (listSwap l ind p).getD k 0 = l.getD k 0 :=
              listSwap_getD_other l ind p k hki hkp
            rw [hgk]
            by_cases hpk : (k - 1) / 2 = ind
            · rw [hpk, listSwap_getD_fst l ind p hi (by omega)]
              have := hInv.2 (by omega) k hk hpk
              rw [← hp] at this
              exact this
            · by_cases hpkp : (k - 1) / 2 = p
              · rw [hpkp, listSwap_getD_snd l ind p hpl (by omega), hwv]
                have h1 := hInv.1 k hk hk0 hki
                rw [hpkp] at h1
                exact le_trans h1 hple
              · rw [listSwap_getD_other l ind p ((k - 1) / 2) hpk hpkp]
                exact hInv.1 k hk hk0 hki
        · intro hp0 c hc hcp
          rw [length_listSwap] at hc
          have hgp_ne1 : (p - 1) / 2 ≠ ind := by omega
          have hgp_ne2 : (p - 1) / 2 ≠ p := by omega
          rw [listSwap_getD_other l ind p ((p - 1) / 2) hgp_ne1 hgp_ne2]
          by_cases hcind : c = ind
          · subst hcind
            rw [listSwap_getD_fst l c p hi (by omega)]
            exact hInv.1 p hpl hp0 (by omega)
          · have hcp' : c ≠ p := by omega
            rw [listSwap_getD_other l ind p c hcind hcp']
            have h1 := hInv.1 c hc (by omega) hcind
            rw [hcp] at h1
            have h2 := hInv.1 p hpl hp0 (by omega)
            exact le_trans h1 h2

theorem bubbleUpFuel_downInv (w : Nat → Int) (wv : Int) :
    ∀ fuel l ind, ind ≤ fuel → ind < l.length → w (l.getD ind 0) = wv →
      holeInv w l ind →
      downInv w (bubbleUpFuel w wv fuel l ind).1 (bubbleUpFuel w wv fuel l ind).2 := by
  intro fuel
  induction fuel with
  | zero =>
    intro l ind hf _ _ hInv
    have h0 : ind = 0 := Nat.le_zero.mp hf
    subst h0
    show downInv w l 0
    exact ⟨fun k hk hk0 hpk => hInv.1 k hk hk0 (by omega) hpk,
           fun h0 => absurd h0 (by omega)⟩
  | succ fuel ih =>
    intro l ind hf hi hwv hInv
    rw [bubbleUpFuel_succ]
    by_cases h0 : ind = 0
    · rw [if_pos h0]
      subst h0
      show downInv w l 0
      exact ⟨fun k hk hk0 hpk => hInv.1 k hk hk0 (by omega) hpk,
             fun h0 => absurd h0 (by omega)⟩
    · by_cases hlt : wv < w (l.getD ((ind - 1) / 2) 0)
      · rw [if_neg h0, if_pos hlt]
        show downInv w l ind
        constructor
        · intro k hk hk0 hpk
          by_cases hki : k = ind
          · subst hki
            rw [hwv]
            exact le_of_lt hlt
          · exact hInv.1 k hk hk0 hki hpk
        · exact hInv.2
      · rw [if_neg h0, if_neg hlt]
        set p := (ind - 1) / 2 with hp
        have hpi : p < ind := by omega
        have hpl : p < l.length := by omega
        apply ih (listSwap l ind p) p (by omega)
          (by rw [length_listSwap]; omega)
          (by rw [listSwap_getD_snd l ind p hpl (by omega)]; exact hwv)
        constructor
        · intro k hk hk0 hkp hpkp
          rw [length_listSwap] at hk
          by_cases hki : k = ind
          · exact absurd (by omega : (k - 1) / 2 = p) hpkp
          · rw [listSwap_getD_other l ind p k hki hkp]
            by_cases hpk : (k - 1) / 2 = ind
            · rw [hpk, listSwap_getD_fst l ind p hi (by omega)]
              have := hInv.2 (by omega) k hk hpk
              rw [← hp] at this
              exact this
            · rw [listSwap_getD_other l ind p ((k - 1) / 2) hpk hpkp]
              exact hInv.1 k hk hk0 hki hpk
        · intro hp0 c hc hcp
          rw [length_listSwap] at hc
          rw [listSwap_getD_other l ind p ((p - 1) / 2) (by omega) (by omega)]
          by_cases hcind : c = ind
          · subst hcind
            rw [listSwap_getD_fst l c p hi (by omega)]
            exact hInv.1 p hpl hp0 (by omega) (by omega)
          · rw [listSwap_getD_other l ind p c hcind (by omega)]
            have h1 := hInv.1 c hc (by omega) hcind (by omega)
            rw [hcp] at h1
            have h2 := hInv.1 p hpl hp0 (by omega) (by omega)
            exact le_trans h1 h2

theorem siftDownFuel_isHeap (w : Nat → Int) (wv : Int) (qcount : Nat) :
    ∀ fuel l ind, qcount = l.length → qcount ≤ fuel + ind → ind < qcount →
      w (l.getD ind 0) = wv → downInv w l ind →
      isHeap w (siftDownFuel w wv qcount fuel l ind).1 := by
  intro fuel
  induction fuel with
  | zero =>
    intro l ind _ hf hi _ _
    exact absurd hi (by omega)
  | succ fuel ih =>
    intro l ind hq hf hi hwv hInv
    rw [siftDownFuel_succ]
    by_cases hc : qcount ≤ 2 * ind + 1
    · rw [if_pos hc]
      show isHeap w l
      intro k hk hk0
      by_cases hpk : (k - 1) / 2 = ind
      · exact absurd hk (by omega)
      · exact hInv.1 k hk hk0 hpk
    · rw [if_neg hc]
      simp only []
      set child := if 2 * ind + 1 + 1 < qcount ∧
          w (l.getD (2 * ind + 1) 0) < w (l.getD (2 * ind + 1 + 1) 0)
          then 2 * ind + 1 + 1 else 2 * ind + 1 with hchild
      have hcr : child = 2 * ind + 1 ∨ child = 2 * ind + 1 + 1 := by
        rw [hchild]; split
        · right; rfl
        · left; rfl
      have hcb : child < qcount := by
        by_cases hcond : 2 * ind + 1 + 1 < qcount ∧
            w (l.getD (2 * ind + 1) 0) < w (l.getD (2 * ind + 1 + 1) 0)
        · rw [hchild, if_pos hcond]; exact hcond.1
        · rw [hchild, if_neg hcond]; omega
      have hpar_child : (child - 1) / 2 = ind := by rcases hcr with h | h <;> omega
      have hmax_left : w (l.getD (2 * ind + 1) 0) ≤ w (l.getD child 0) := by
        by_cases hcond : 2 * ind + 1 + 1 < qcount ∧
            w (l.getD (2 * ind + 1) 0) < w (l.getD (2 * ind + 1 + 1) 0)
        · rw [hchild, if_pos hcond]; exact le_of_lt hcond.2
        · rw [hchild, if_neg hcond]
      have hmax_right : 2 * ind + 1 + 1 < qcount →
          w (l.getD (2 * ind + 1 + 1) 0) ≤ w (l.getD child 0) := by
        intro hr
        by_cases hcond : 2 * ind + 1 + 1 < qcount ∧
            w (l.getD (2 * ind + 1) 0) < w (l.getD (2 * ind + 1 + 1) 0)
        · rw [hchild, if_pos hcond]
        · rw [hchild, if_neg hcond]
          exact not_lt.mp (fun hx => hcond ⟨hr, hx⟩)
      by_cases hsw : wv < w (l.getD child 0)
      · rw [if_pos hsw]
        apply ih (listSwap l child ind) child
          (by rw [length_listSwap]; exact hq) (by omega) hcb
          (by rw [listSwap_getD_fst l child ind (by omega) (by omega)]; exact hwv)
        constructor
        · intro k hk hk0 hpk
          rw [length_listSwap] at hk
          by_cases hki : k = ind
          · subst hki
            rw [listSwap_getD_snd l child k (by omega) (by omega)]
            rw [listSwap_getD_other l child k ((k - 1) / 2) (by omega) (by omega)]
            exact hInv.2 (by omega) child (by omega) hpar_child
          · by_cases hkc : k = child
            · subst hkc
              rw [hpar_child, listSwap_getD_fst l child ind (by omega) (by omega),
                listSwap_getD_snd l child ind (by omega) (by omega), hwv]
              exact le_of_lt hsw
            · rw [listSwap_getD_other l child ind k hkc hki]
              by_cases hpki : (k - 1) / 2 = ind
              · rw [hpki, listSwap_getD_snd l child ind (by omega) (by omega)]
                have hk2 : k = 2 * ind + 1 ∨ k = 2 * ind + 1 + 1 := by
                  rcases hcr with h | h <;> omega
                rcases hk2 with h | h
                · subst h; exact hmax_left
                · subst h; exact hmax_right (by omega)
              · rw [listSwap_getD_other l child ind ((k - 1) / 2) hpk hpki]
                exact hInv.1 k hk hk0 hpki
        · intro _ gc hgc hgcp
          rw [length_listSwap] at hgc
          rw [hpar_child]
          rw [listSwap_getD_snd l child ind (by omega) (by omega)]
          rw [listSwap_getD_other l child ind gc (by omega) (by omega)]
          have := hInv.1 gc hgc (by omega) (by omega)
          rw [hgcp] at this
          exact this
      · rw [if_neg hsw]
        show isHeap w l
        intro k hk hk0
        by_cases hpk : (k - 1) / 2 = ind
        · rw [hpk, hwv]
          have hk2 : k = 2 * ind + 1 ∨ k = 2 * ind + 1 + 1 := by omega
          have hle : w (l.getD k 0) ≤ w (l.getD child 0) := by
            rcases hk2 with h | h
            · subst h; exact hmax_left
            · subst h; exact hmax_right (by omega)
          exact le_trans hle (not_lt.mp hsw)
        · exact hInv.1 k hk hk0 hpk

theorem queue_bubble_up_length (w : Nat → Int) (l : List Nat) (ind : Nat) :
    (queue_bubble_up w l ind).1.length = l.length :=
  bubbleUpFuel_length w _ ind l ind

theorem queue_bubble_up_ind_le (w : Nat → Int) (l : List Nat) (ind : Nat) :
    (queue_bubble_up w l ind).2 ≤ ind :=
  bubbleUpFuel_ind_le w _ ind l ind

theorem queue_sift_down_length (w : Nat → Int) (l : List Nat) (ind : Nat) :
    (queue_sift_down w l ind).1.length = l.length :=
  siftDownFuel_length w _ l.length l.length l ind

theorem queue_bubble_up_downInv (w : Nat → Int) (l : List Nat) (ind : Nat)
    (h : ind < l.length) (hInv : holeInv w l ind) :
    downInv w (queue_bubble_up w l ind).1 (queue_bubble_up w l ind).2 :=
  bubbleUpFuel_downInv w _ ind l ind (Nat.le_refl _) h rfl hInv

theorem queue_sift_down_isHeap (w : Nat → Int) (l : List Nat) (ind : Nat)
    (h : ind < l.length) (hInv : downInv w l ind) :
    isHeap w (queue_sift_down w l ind).1 :=
  siftDownFuel_isHeap w _ l.length l.length l ind rfl (by omega) h rfl hInv

theorem upInv_append (w : Nat → Int) (l : List Nat) (x : Nat) (h : isHeap w l) :
    upInv w (l ++ [x]) l.length := by
  constructor
  · intro k hk hk0 hkn
    have hkl : k < l.length := by
      simp only [List.length_append, List.length_cons, List.length_nil] at hk
      omega
    rw [getD_append_lt l [x] k hkl, getD_append_lt l [x] ((k - 1) / 2) (by omega)]
    exact h k hkl hk0
  · intro h0 c hc hcp
    have hcl : c < l.length + 1 := by simpa using hc
    exact absurd hcp (by omega)

theorem bubble_append_isHeap (w : Nat → Int) (l : List Nat) (x : Nat) (h : isHeap w l) :
    isHeap w (queue_bubble_up w (l ++ [x]) l.length).1 :=
  bubbleUpFuel_isHeap w _ l.length (l ++ [x]) l.length (Nat.le_refl _)
    (by simp) rfl (upInv_append w l x h)

theorem drainOne_tid_length (w : Nat → Int) (grow : Nat) (q : Queue) (t : Nat) :
    (drainOne w grow q t).tid.length = q.tid.length + 1 := by
  unfold drainOne
  simp only []
  rw [queue_bubble_up_length]
  simp

theorem drainOne_incoming (w : Nat → Int) (grow : Nat) (q : Queue) (t : Nat) :
    (drainOne w grow q t).incoming = q.incoming := rfl

theorem drainOne_perm (w : Nat → Int) (grow : Nat) (q : Queue) (t : Nat) :
    ((drainOne w grow q t).tid).Perm (q.tid ++ [t]) := by
  unfold drainOne
  simp only []
  have hlen : (q.tid ++ [t]).length - 1 < (q.tid ++ [t]).length := by simp
  exact bubbleUpFuel_perm w _ _ (q.tid ++ [t]) ((q.tid ++ [t]).length - 1) hlen

theorem drainOne_isHeap (w : Nat → Int) (grow : Nat) (q : Queue) (t : Nat)
    (h : isHeap w q.tid) : isHeap w (drainOne w grow q t).tid := by
  unfold drainOne
  simp only []
  rw [show (q.tid ++ [t]).length - 1 = q.tid.length by simp]
  exact bubble_append_isHeap w q.tid t h

theorem drainOne_sizeOk (w : Nat → Int) (grow : Nat) (q : Queue) (t : Nat)
    (hg : 2 ≤ grow) (h : q.tid.length ≤ q.size ∧ 1 ≤ q.size) :
    (drainOne w grow q t).tid.length ≤ (drainOne w grow q t).size ∧
      1 ≤ (drainOne w grow q t).size := by
  rw [drainOne_tid_length]
  show q.tid.length + 1 ≤ (if q.tid.length = q.size then q.size * grow else q.size) ∧
    1 ≤ (if q.tid.length = q.size then q.size * grow else q.size)
  by_cases he : q.tid.length = q.size
  · rw [if_pos he]
    have h2 : q.size * 2 ≤ q.size * grow := Nat.mul_le_mul (Nat.le_refl q.size) hg
    omega
  · rw [if_neg he]
    omega

theorem drainList_tid_length (w : Nat → Int) (grow : Nat) :
    ∀ ts q, (drainList w grow q ts).tid.length = q.tid.length + ts.length := by
  intro ts
  induction ts with
  | nil => intro q; rfl
  | cons t ts ih =>
    intro q
    show (drainList w grow (drainOne w grow q t) ts).tid.length = _
    rw [ih, drainOne_tid_length]
    simp
    omega

theorem drainList_incoming (w : Nat → Int) (grow : Nat) :
    ∀ ts q, (drainList w grow q ts).incoming = q.incoming := by
  intro ts
  induction ts with
  | nil => intro q; rfl
  | cons t ts ih =>
    intro q
    show (drainList w grow (drainOne w grow q t) ts).incoming = _
    rw [ih, drainOne_incoming]

theorem drainList_perm (w : Nat → Int) (grow : Nat) :
    ∀ ts q, ((drainList w grow q ts).tid).Perm (q.tid ++ ts) := by
  intro ts
  induction ts with
  | nil =>
    intro q
    show (q.tid).Perm (q.tid ++ [])
    simp
  | cons t ts ih =>
    intro q
    show ((drainList w grow (drainOne w grow q t) ts).tid).Perm _
    have h1 := ih (drainOne w grow q t)
    have h2 : ((drainOne w grow q t).tid ++ ts).Perm ((q.tid ++ [t]) ++ ts) :=
      List.Perm.append_right ts (drainOne_perm w grow q t)
    have h3 : (q.tid ++ [t]) ++ ts = q.tid ++ t :: ts := by simp
    rw [h3] at h2
    exact h1.trans h2

theorem drainList_isHeap (w : Nat → Int) (grow : Nat) :
    ∀ ts q, isHeap w q.tid → isHeap w (drainList w grow q ts).tid := by
  intro ts
  induction ts with
  | nil => intro q h; exact h
  | cons t ts ih =>
    intro q h
    exact ih (drainOne w grow q t) (drainOne_isHeap w grow q t h)

theorem drainList_sizeOk (w : Nat → Int) (grow : Nat) (hg : 2 ≤ grow) :
    ∀ ts q, q.tid.length ≤ q.size ∧ 1 ≤ q.size →
      (drainList w grow q ts).tid.length ≤ (drainList w grow q ts).size ∧
        1 ≤ (drainList w grow q ts).size := by
  intro ts
  induction ts with
  | nil => intro q h; exact h
  | cons t ts ih =>
    intro q h
    exact ih (drainOne w grow q t) (drainOne_sizeOk w grow q t hg h)

theorem get_incoming_tid_length (w : Nat → Int) (grow : Nat) (q : Queue) :
    (queue_get_incoming w grow q).tid.length = q.tid.length + q.incoming.length :=
  drainList_tid_length w grow q.incoming _

theorem get_incoming_incoming (w : Nat → Int) (grow : Nat) (q : Queue) :
    (queue_get_incoming w grow q).incoming = [] :=
  drainList_incoming w grow q.incoming _

theorem get_incoming_perm (w : Nat → Int) (grow : Nat) (q : Queue) :
    ((queue_get_incoming w grow q).tid).Perm (q.tid ++ q.incoming) :=
  drainList_perm w grow q.incoming _

theorem get_incoming_isHeap (w : Nat → Int) (grow : Nat) (q : Queue)
    (h : isHeap w q.tid) : isHeap w (queue_get_incoming w grow q).tid :=
  drainList_isHeap w grow q.incoming _ h

theorem isHeap_take (w : Nat → Int) (l : List Nat) (m : Nat) (h : isHeap w l) :
    isHeap w (l.take m) := by
  intro k hk hk0
  have hkm : k < m ∧ k < l.length := by
    simp only [List.length_take] at hk
    omega
  rw [getD_take_lt l k m (by omega), getD_take_lt l ((k - 1) / 2) m (by omega)]
  exact h k (by omega) hk0

theorem holeInv_remove (w : Nat → Int) (l : List Nat) (ind : Nat) (h : isHeap w l)
    (hind : ind < l.length - 1) :
    holeInv w ((l.set ind (l.getD (l.length - 1) 0)).take (l.length - 1)) ind := by
  have hlen : ((l.set ind (l.getD (l.length - 1) 0)).take (l.length - 1)).length
      = l.length - 1 := by
    simp [List.length_take]
  have hget : ∀ j, j < l.length - 1 → j ≠ ind →
      ((l.set ind (l.getD (l.length - 1) 0)).take (l.length - 1)).getD j 0 = l.getD j 0 := by
    intro j hj hjne
    rw [getD_take_lt _ _ _ hj, getD_set_ne _ _ _ _ (fun hx => hjne hx.symm)]
  constructor
  · intro k hk hk0 hki hpk
    rw [hlen] at hk
    rw [hget k hk hki, hget ((k - 1) / 2) (by omega) hpk]
    exact h k (by omega) hk0
  · intro h0 c hc hcp
    rw [hlen] at hc
    rw [hget c hc (by omega), hget ((ind - 1) / 2) (by omega) (by omega)]
    have h1 := h c (by omega) (by omega)
    rw [hcp] at h1
    have h2 := h ind (by omega) h0
    exact le_trans h1 h2

theorem removeAt_isHeap (w : Nat → Int) (l : List Nat) (ind : Nat) (h : isHeap w l) :
    isHeap w (removeAt w l ind) := by
  unfold removeAt
  simp only []
  by_cases hc : ind < l.length - 1
  · rw [if_pos hc]
    have hInv := holeInv_remove w l ind h hc
    have hl0len : ((l.set ind (l.getD (l.length - 1) 0)).take (l.length - 1)).length
        = l.length - 1 := by simp [List.length_take]
    have hind0 : ind < ((l.set ind (l.getD (l.length - 1) 0)).take (l.length - 1)).length := by
      omega
    have hdown := queue_bubble_up_downInv w
      ((l.set ind (l.getD (l.length - 1) 0)).take (l.length - 1)) ind hind0 hInv
    have hb_len := queue_bubble_up_length w
      ((l.set ind (l.getD (l.length - 1) 0)).take (l.length - 1)) ind
    have hb_le := queue_bubble_up_ind_le w
      ((l.set ind (l.getD (l.length - 1) 0)).take (l.length - 1)) ind
    exact queue_sift_down_isHeap w _ _ (by omega) hdown
  · rw [if_neg hc]
    exact isHeap_take w l _ h

theorem removeAt_length (w : Nat → Int) (l : List Nat) (ind : Nat) :
    (removeAt w l ind).length = l.length - 1 := by
  unfold removeAt
  simp only []
  by_cases hc : ind < l.length - 1
  · rw [if_pos hc]
    rw [queue_sift_down_length, queue_bubble_up_length]
    simp [List.length_take]
  · rw [if_neg hc]
    simp [List.length_take]

theorem getD_mem_of_lt {α : Type} (l : List α) (k : Nat) (d : α) (h : k < l.length) :
    l.getD k d ∈ l := by
  rw [List.getD_eq_getElem l d h]
  exact List.getElem_mem h

theorem mem_set_cases {α : Type} :
    ∀ (l : List α) (i : Nat) (a e : α), e ∈ l.set i a → e ∈ l ∨ e = a := by
  intro l
  induction l with
  | nil => intro i a e h; simp at h
  | cons x xs ih =>
    intro i a e h
    cases i with
    | zero =>
      rcases List.mem_cons.mp h with h1 | h1
      · right; exact h1
      · left; exact List.mem_cons_of_mem x h1
    | succ n =>
      rcases List.mem_cons.mp h with h1 | h1
      · left; rw [h1]; exact List.mem_cons_self x xs
      · rcases ih n a e h1 with h2 | h2
        · left; exact List.mem_cons_of_mem x h2
        · right; exact h2

theorem idxMaxFuel_lt (wnd : List WEntry) :
    ∀ fuel i im, im < wnd.length → i + fuel ≤ wnd.length →
      idxMaxFuel wnd fuel i im < wnd.length := by
  intro fuel
  induction fuel with
  | zero => intro i im him _; exact him
  | succ fuel ih =>
    intro i im him hi
    show idxMaxFuel wnd fuel (i + 1)
      (if (wnd.getD im default).score < (wnd.getD i default).score then i else im) < wnd.length
    apply ih
    · by_cases hs : (wnd.getD im default).score < (wnd.getD i default).score
      · rw [if_pos hs]; omega
      · rw [if_neg hs]; exact him
    · omega

theorem idxMax_lt (wnd : List WEntry) (h : wnd ≠ []) : idxMax wnd < wnd.length := by
  have hpos : 0 < wnd.length := List.length_pos.mpr h
  exact idxMaxFuel_lt wnd (wnd.length - 1) 1 0 hpos (by omega)

theorem removeSwap_length (wnd : List WEntry) (im : Nat) :
    (removeSwap wnd im).length = wnd.length - 1 := by
  simp [removeSwap, List.length_take]

theorem removeSwap_subset (wnd : List WEntry) (im : Nat) (hw : 0 < wnd.length) :
    ∀ e ∈ removeSwap wnd im, e ∈ wnd := by
  intro e he
  have h1 : e ∈ wnd.set im (wnd.getD (wnd.length - 1) default) := by
    have := List.take_sublist (wnd.length - 1)
      (wnd.set im (wnd.getD (wnd.length - 1) default))
    exact this.mem he
  rcases mem_set_cases _ im _ e h1 with h2 | h2
  · exact h2
  · rw [h2]
    exact getD_mem_of_lt wnd (wnd.length - 1) default (by omega)

theorem scanFuel_succ (score : Nat → Int) (canLock : Nat → Bool) (qtid : List Nat)
    (sw fuel k : Nat) (wnd : List WEntry) :
    scanFuel score canLock qtid sw (fuel + 1) k wnd =
      if k < sw then
        scanFuel score canLock qtid sw fuel (k + 1)
          (wnd ++ [⟨k, qtid.getD k 0, score (qtid.getD k 0)⟩])
      else
        let im := idxMax wnd
        let e := wnd.getD im default
        if canLock e.tid then (Sum.inr (e.tid, e.ind), [e.tid])
        else
          let r := scanFuel score canLock qtid sw fuel (k + 1)
            (wnd.set im ⟨k, qtid.getD k 0, score (qtid.getD k 0)⟩)
          (r.1, e.tid :: r.2) := rfl

theorem fallbackFuel_succ (canLock : Nat → Bool) (fuel : Nat) (wnd : List WEntry) :
    fallbackFuel canLock (fuel + 1) wnd =
      if wnd.length = 0 then (none, [])
      else
        let im := idxMax wnd
        let e := wnd.getD im default
        if canLock e.tid then (some (e.tid, e.ind), [e.tid])
        else
          let r := fallbackFuel canLock fuel (removeSwap wnd im)
          (r.1, e.tid :: r.2) := rfl

theorem fallbackFuel_spec (canLock : Nat → Bool) (qtid : List Nat) :
    ∀ fuel wnd,
      (∀ e ∈ wnd, e.ind < qtid.length ∧ e.tid = qtid.getD e.ind 0) →
      (∀ t i, (fallbackFuel canLock fuel wnd).1 = some (t, i) →
        i < qtid.length ∧ t = qtid.getD i 0 ∧ canLock t = true ∧
          t ∈ (fallbackFuel canLock fuel wnd).2) ∧
      ((fallbackFuel canLock fuel wnd).1 = none →
        ∀ t ∈ (fallbackFuel canLock fuel wnd).2, canLock t = false) := by
  intro fuel
  induction fuel with
  | zero =>
    intro wnd _
    constructor
    · intro t i h
      simp [fallbackFuel] at h
    · intro _ t ht
      simp [fallbackFuel] at ht
  | succ fuel ih =>
    intro wnd hWF
    rw [fallbackFuel_succ]
    by_cases h0 : wnd.length = 0
    · rw [if_pos h0]
      constructor
      · intro t i h
        simp at h
      · intro _ t ht
        simp at ht
    · rw [if_neg h0]
      simp only []
      have hne : wnd ≠ [] := fun hx => h0 (by rw [hx]; rfl)
      have himlt : idxMax wnd < wnd.length := idxMax_lt wnd hne
      have hemem : wnd.getD (idxMax wnd) default ∈ wnd :=
        getD_mem_of_lt wnd (idxMax wnd) default himlt
      have heWF := hWF _ hemem
      by_cases hlock : canLock (wnd.getD (idxMax wnd) default).tid = true
      · rw [if_pos hlock]
        constructor
        · intro t i h
          simp only [Option.some.injEq, Prod.mk.injEq] at h
          obtain ⟨h1, h2⟩ := h
          subst h1
          subst h2
          exact ⟨heWF.1, heWF.2, hlock, by simp⟩
        · intro h
          simp at h
      · rw [if_neg hlock]
        have hWF2 : ∀ e ∈ removeSwap wnd (idxMax wnd),
            e.ind < qtid.length ∧ e.tid = qtid.getD e.ind 0 := by
          intro e he
          exact hWF e (removeSwap_subset wnd (idxMax wnd) (by omega) e he)
        have ihs := ih (removeSwap wnd (idxMax wnd)) hWF2
        constructor
        · intro t i h
          obtain ⟨b1, b2, b3, b4⟩ := ihs.1 t i h
          exact ⟨b1, b2, b3, List.mem_cons_of_mem _ b4⟩
        · intro h t ht
          rcases List.mem_cons.mp ht with h1 | h1
          · rw [h1]
            simpa using hlock
          · exact ihs.2 h t h1

theorem scanFuel_spec (score : Nat → Int) (canLock : Nat → Bool) (qtid : List Nat) (sw : Nat)
    (hsw : 1 ≤ sw) :
    ∀ fuel k wnd,
      (∀ e ∈ wnd, e.ind < qtid.length ∧ e.tid = qtid.getD e.ind 0) →
      k + fuel ≤ qtid.length →
      wnd.length = min k sw →
      (∀ t i, (scanFuel score canLock qtid sw fuel k wnd).1 = Sum.inr (t, i) →
        i < qtid.length ∧ t = qtid.getD i 0 ∧ canLock t = true ∧
          t ∈ (scanFuel score canLock qtid sw fuel k wnd).2) ∧
      (∀ wnd2, (scanFuel score canLock qtid sw fuel k wnd).1 = Sum.inl wnd2 →
        (∀ e ∈ wnd2, e.ind < qtid.length ∧ e.tid = qtid.getD e.ind 0) ∧
        wnd2.length = min (k + fuel) sw ∧
        (∀ t ∈ (scanFuel score canLock qtid sw fuel k wnd).2, canLock t = false)) := by
  intro fuel
  induction fuel with
  | zero =>
    intro k wnd hWF hk hlen
    constructor
    · intro t i h
      simp [scanFuel] at h
    · intro wnd2 h
      simp only [scanFuel] at h
      injection h with h
      subst h
      refine ⟨hWF, by simpa using hlen, ?_⟩
      intro t ht
      simp [scanFuel] at ht
  | succ fuel ih =>
    intro k wnd hWF hk hlen
    rw [scanFuel_succ]
    by_cases hklt : k < sw
    · rw [if_pos hklt]
      have hWF2 : ∀ e ∈ wnd ++ [⟨k, qtid.getD k 0, score (qtid.getD k 0)⟩],
          e.ind < qtid.length ∧ e.tid = qtid.getD e.ind 0 := by
        intro e he
        rcases List.mem_append.mp he with h1 | h1
        · exact hWF e h1
        · have he2 : e = ⟨k, qtid.getD k 0, score (qtid.getD k 0)⟩ := by simpa using h1
          rw [he2]
          refine ⟨?_, rfl⟩
          show k < qtid.length
          omega
      have hlen2 : (wnd ++ [(⟨k, qtid.getD k 0, score (qtid.getD k 0)⟩ : WEntry)]).length
          = min (k + 1) sw := by
        simp only [List.length_append, List.length_cons, List.length_nil, hlen]
        omega
      have ihs := ih (k + 1) (wnd ++ [⟨k, qtid.getD k 0, score (qtid.getD k 0)⟩])
        hWF2 (by omega) hlen2
      constructor
      · exact ihs.1
      · intro wnd2 h
        obtain ⟨a1, a2, a3⟩ := ihs.2 wnd2 h
        refine ⟨a1, ?_, a3⟩
        rw [show k + (fuel + 1) = k + 1 + fuel from by omega]
        exact a2
    · rw [if_neg hklt]
      simp only []
      have hwndlen : wnd.length = sw := by omega
      have hne : wnd ≠ [] := by
        intro hx
        rw [hx] at hwndlen
        simp at hwndlen
        omega
      have himlt := idxMax_lt wnd hne
      have hemem := getD_mem_of_lt wnd (idxMax wnd) default himlt
      have heWF := hWF _ hemem
      by_cases hlock : canLock (wnd.getD (idxMax wnd) default).tid = true
      · rw [if_pos hlock]
        constructor
        · intro t i h
          simp only [Sum.inr.injEq, Prod.mk.injEq] at h
          obtain ⟨h1, h2⟩ := h
          subst h1
          subst h2
          exact ⟨heWF.1, heWF.2, hlock, by simp⟩
        · intro wnd2 h
          simp at h
      · rw [if_neg hlock]
        have hWF2 : ∀ e ∈ wnd.set (idxMax wnd) ⟨k, qtid.getD k 0, score (qtid.getD k 0)⟩,
            e.ind < qtid.length ∧ e.tid = qtid.getD e.ind 0 := by
          intro e he
          rcases mem_set_cases _ _ _ e he with h1 | h1
          · exact hWF e h1
          · rw [h1]
            refine ⟨?_, rfl⟩
            show k < qtid.length
            omega
        have hlen2 : (wnd.set (idxMax wnd) ⟨k, qtid.getD k 0, score (qtid.getD k 0)⟩).length
            = min (k + 1) sw := by
          simp only [List.length_set, hwndlen]
          omega
        have ihs := ih (k + 1) (wnd.set (idxMax wnd) ⟨k, qtid.getD k 0, score (qtid.getD k 0)⟩)
          hWF2 (by omega) hlen2
        constructor
        · intro t i h
          obtain ⟨b1, b2, b3, b4⟩ := ihs.1 t i h
          exact ⟨b1, b2, b3, List.mem_cons_of_mem _ b4⟩
        · intro wnd2 h
          obtain ⟨a1, a2, a3⟩ := ihs.2 wnd2 h
          refine ⟨a1, ?_, ?_⟩
          · rw [show k + (fuel + 1) = k + 1 + fuel from by omega]
            exact a2
          · intro t ht
            rcases List.mem_cons.mp ht with h1 | h1
            · rw [h1]
              simpa using hlock
            · exact a3 t h1

theorem selectTask_eq_inr (score : Nat → Int) (canLock : Nat → Bool) (sw : Nat)
    (qtid : List Nat) (r : Nat × Nat) (tried : List Nat)
    (h : scanFuel score canLock qtid sw qtid.length 0 [] = (Sum.inr r, tried)) :
    selectTask score canLock sw qtid = (some r, tried) := by
  unfold selectTask
  rw [h]

theorem selectTask_eq_inl (score : Nat → Int) (canLock : Nat → Bool) (sw : Nat)
    (qtid : List Nat) (wnd : List WEntry) (tried : List Nat)
    (h : scanFuel score canLock qtid sw qtid.length 0 [] = (Sum.inl wnd, tried)) :
    selectTask score canLock sw qtid =
      ((fallbackFuel canLock wnd.length wnd).1,
        tried ++ (fallbackFuel canLock wnd.length wnd).2) := by
  unfold selectTask
  rw [h]

theorem selectTask_sound (score : Nat → Int) (canLock : Nat → Bool) (sw : Nat)
    (qtid : List Nat) (hsw : 1 ≤ sw) :
    (∀ t i, (selectTask score canLock sw qtid).1 = some (t, i) →
      i < qtid.length ∧ t = qtid.getD i 0 ∧ canLock t = true ∧
        t ∈ (selectTask score canLock sw qtid).2) ∧
    ((selectTask score canLock sw qtid).1 = none →
      ∀ t ∈ (selectTask score canLock sw qtid).2, canLock t = false) := by
  have hspec := scanFuel_spec score canLock qtid sw hsw qtid.length 0 []
    (by intro e he; simp at he) (by omega) (by simp)
  rcases hres : scanFuel score canLock qtid sw qtid.length 0 [] with ⟨res, tried⟩
  rw [hres] at hspec
  cases res with
  | inr r =>
    have hsel := selectTask_eq_inr score canLock sw qtid r tried hres
    rw [hsel]
    constructor
    · intro t i h
      have hr : r = (t, i) := by simpa using h
      subst hr
      obtain ⟨b1, b2, b3, b4⟩ := hspec.1 t i rfl
      exact ⟨b1, b2, b3, b4⟩
    · intro h
      simp at h
  | inl wnd =>
    have hsel := selectTask_eq_inl score canLock sw qtid wnd tried hres
    rw [hsel]
    obtain ⟨hWFw, hlenw, htriedF⟩ := hspec.2 wnd rfl
    have hfb := fallbackFuel_spec canLock qtid wnd.length wnd hWFw
    constructor
    · intro t i h
      obtain ⟨b1, b2, b3, b4⟩ := hfb.1 t i h
      exact ⟨b1, b2, b3, List.mem_append.mpr (Or.inr b4)⟩
    · intro h t ht
      rcases List.mem_append.mp ht with h1 | h1
      · exact htriedF t h1
      · exact hfb.2 h t h1

theorem scanFuel_window_len (score : Nat → Int) (canLock : Nat → Bool)
    (qtid : List Nat) (sw : Nat) :
    ∀ fuel k wnd, wnd.length = min k sw →
      ∀ wnd2, (scanFuel score canLock qtid sw fuel k wnd).1 = Sum.inl wnd2 →
        wnd2.length ≤ sw := by
  intro fuel
  induction fuel with
  | zero =>
    intro k wnd hlen wnd2 h
    simp only [scanFuel] at h
    injection h with h
    subst h
    omega
  | succ fuel ih =>
    intro k wnd hlen wnd2 h
    rw [scanFuel_succ] at h
    by_cases hklt : k < sw
    · rw [if_pos hklt] at h
      apply ih (k + 1) _ _ wnd2 h
      simp only [List.length_append, List.length_cons, List.length_nil, hlen]
      omega
    · rw [if_neg hklt] at h
      simp only [] at h
      by_cases hlock : canLock (wnd.getD (idxMax wnd) default).tid = true
      · rw [if_pos hlock] at h
        simp at h
      · rw [if_neg hlock] at h
        apply ih (k + 1) _ _ wnd2 h
        simp only [List.length_set, hlen]
        omega

/-- Claim C1: after an insert followed by a drain, and after any
`queue_gettask` call, the heap array satisfies the max-heap property:
every entry's parent carries at least its weight. -/
theorem claim_heap_invariant (w score : Nat → Int) (canLock : Nat → Bool)
    (grow sw : Nat) (blocking lockFree : Bool) (q : Queue) (t : Nat) (h : isHeap w q.tid) :
    isHeap w (queue_get_incoming w grow (queue_insert q t)).tid ∧
    isHeap w ((queue_gettask w score canLock grow sw blocking lockFree q).2).tid := by
  constructor
  · exact get_incoming_isHeap w grow (queue_insert q t) h
  · have hq1 : isHeap w (queue_get_incoming w grow q).tid := get_incoming_isHeap w grow q h
    unfold queue_gettask
    by_cases hbl : blocking = false ∧ lockFree = false
    · rw [if_pos hbl]
      exact h
    · rw [if_neg hbl]
      simp only []
      by_cases hz : (queue_get_incoming w grow q).tid.length = 0
      · rw [if_pos hz]
        exact hq1
      · rw [if_neg hz]
        rcases hsel : (selectTask score canLock sw (queue_get_incoming w grow q).tid).1
          with _ | ⟨ti, ind⟩
        · exact hq1
        · exact removeAt_isHeap w _ ind hq1

theorem claim_heap_invariant_witness :
    isHeap wScenario (queue_init 4).tid ∧
    (isHeap wScenario
      (queue_get_incoming wScenario 2 (queue_insert (queue_init 4) 2)).tid ∧
     isHeap wScenario
      ((queue_gettask wScenario scoreZero lockAll 2 8 true true (queue_init 4)).2).tid) :=
  ⟨by decide,
   claim_heap_invariant wScenario scoreZero lockAll 2 8 true true (queue_init 4) 2 (by decide)⟩

/-- Claim C3: `queue_gettask` (blocking, queue lock available) returns
either a task that is present in the heap after draining the incoming
buffer and whose trylock succeeds, or none exactly when that heap is
empty or every candidate on which a trylock was attempted failed it. -/
theorem claim_gettask_contract (w score : Nat → Int) (canLock : Nat → Bool)
    (grow sw : Nat) (q : Queue) (hsw : 1 ≤ sw) :
    (∀ t, (queue_gettask w score canLock grow sw true true q).1 = some t →
      t ∈ (queue_get_incoming w grow q).tid ∧ canLock t = true) ∧
    ((queue_gettask w score canLock grow sw true true q).1 = none ↔
      ((queue_get_incoming w grow q).tid.length = 0 ∨
        ∀ t ∈ (selectTask score canLock sw (queue_get_incoming w grow q).tid).2,
          canLock t = false)) := by
  have hsound := selectTask_sound score canLock sw (queue_get_incoming w grow q).tid hsw
  by_cases hz : (queue_get_incoming w grow q).tid.length = 0
  · have hgt : queue_gettask w score canLock grow sw true true q
        = (none, queue_get_incoming w grow q) := by
      unfold queue_gettask
      rw [if_neg (by simp)]
      simp only []
      rw [if_pos hz]
    rw [hgt]
    exact ⟨fun t ht => by simp at ht, ⟨fun _ => Or.inl hz, fun _ => rfl⟩⟩
  · rcases hsel : (selectTask score canLock sw (queue_get_incoming w grow q).tid).1
      with _ | ⟨ti, ind⟩
    · have hgt : queue_gettask w score canLock grow sw true true q
          = (none, queue_get_incoming w grow q) := by
        unfold queue_gettask
        rw [if_neg (by simp)]
        simp only []
        rw [if_neg hz, hsel]
      rw [hgt]
      exact ⟨fun t ht => by simp at ht,
             ⟨fun _ => Or.inr (hsound.2 hsel), fun _ => rfl⟩⟩
    · have hs := hsound.1 ti ind hsel
      have hgt : queue_gettask w score canLock grow sw true true q
          = (some ti, { queue_get_incoming w grow q with
              tid := removeAt w (queue_get_incoming w grow q).tid ind }) := by
        unfold queue_gettask
        rw [if_neg (by simp)]
        simp only []
        rw [if_neg hz, hsel]
      rw [hgt]
      constructor
      · intro t ht
        have hti : ti = t := by simpa using ht
        subst hti
        refine ⟨?_, hs.2.2.1⟩
        rw [hs.2.1]
        exact getD_mem_of_lt _ ind 0 hs.1
      · constructor
        · intro hnone
          simp at hnone
        · intro hor
          rcases hor with h1 | h1
          · exact absurd h1 hz
          · exfalso
            have hfail := h1 ti hs.2.2.2
            rw [hs.2.2.1] at hfail
            exact Bool.noConfusion hfail

theorem claim_gettask_contract_witness :
    1 ≤ 8 ∧
    ((∀ t, (queue_gettask wScenario scoreZero lockAll 2 8 true true (queue_init 4)).1 = some t →
      t ∈ (queue_get_incoming wScenario 2 (queue_init 4)).tid ∧ lockAll t = true) ∧
    ((queue_gettask wScenario scoreZero lockAll 2 8 true true (queue_init 4)).1 = none ↔
      ((queue_get_incoming wScenario 2 (queue_init 4)).tid.length = 0 ∨
        ∀ t ∈ (selectTask scoreZero lockAll 8
            (queue_get_incoming wScenario 2 (queue_init 4)).tid).2,
          lockAll t = false))) :=
  ⟨by decide,
   claim_gettask_contract wScenario scoreZero lockAll 2 8 (queue_init 4) (by decide)⟩

/-- Claim C9: the candidate window never outgrows `queue_search_window`
(`sw`): from any scan state whose window obeys the size invariant, the
window handed to the fallback loop has at most `sw` entries, the
`ind_max` index stays inside the window, and the fallback removal step
shrinks the window by one, so all window accesses stay in bounds. -/
theorem claim_window_bounded (score : Nat → Int) (canLock : Nat → Bool)
    (qtid : List Nat) (sw fuel k : Nat) (wnd : List WEntry)
    (hlen : wnd.length = min k sw) :
    (∀ wnd2, (scanFuel score canLock qtid sw fuel k wnd).1 = Sum.inl wnd2 →
      wnd2.length ≤ sw) ∧
    (wnd ≠ [] → idxMax wnd < wnd.length) ∧
    (removeSwap wnd (idxMax wnd)).length = wnd.length - 1 :=
  ⟨scanFuel_window_len score canLock qtid sw fuel k wnd hlen,
   fun hne => idxMax_lt wnd hne,
   removeSwap_length wnd (idxMax wnd)⟩

theorem claim_window_bounded_witness :
    ([] : List WEntry).length = min 0 2 ∧
    ((∀ wnd2, (scanFuel scoreZero lockAll [0, 1] 2 2 0 []).1 = Sum.inl wnd2 →
      wnd2.length ≤ 2) ∧
    (([] : List WEntry) ≠ [] → idxMax [] < ([] : List WEntry).length) ∧
    (removeSwap [] (idxMax [])).length = ([] : List WEntry).length - 1) :=
  ⟨by decide,
   claim_window_bounded scoreZero lockAll [0, 1] 2 2 0 [] (by decide)⟩

/-- Claim C2: inserting tasks of weights 5, 1, 9, 3 (task indices
0, 1, 2, 3), draining, and then calling `queue_gettask` four times with
every task unlockable and all overlap scores zero returns the tasks in
weight order 9, 5, 3, 1. -/
theorem claim_retrieval_order_scenario :
    ((queue_gettask wScenario scoreZero lockAll 2 8 true true
        (queue_get_incoming wScenario 2
          (queue_insert (queue_insert (queue_insert (queue_insert (queue_init 4) 0) 1) 2) 3))).1
      = some 2) ∧
    ((queue_gettask wScenario scoreZero lockAll 2 8 true true
        (queue_gettask wScenario scoreZero lockAll 2 8 true true
          (queue_get_incoming wScenario 2
            (queue_insert (queue_insert (queue_insert (queue_insert (queue_init 4) 0) 1) 2) 3))).2).1
      = some 0) ∧
    ((queue_gettask wScenario scoreZero lockAll 2 8 true true
        (queue_gettask wScenario scoreZero lockAll 2 8 true true
          (queue_gettask wScenario scoreZero lockAll 2 8 true true
            (queue_get_incoming wScenario 2
              (queue_insert (queue_insert (queue_insert (queue_insert (queue_init 4) 0) 1) 2) 3))).2).2).1
      = some 3) ∧
    ((queue_gettask wScenario scoreZero lockAll 2 8 true true
        (queue_gettask wScenario scoreZero lockAll 2 8 true true
          (queue_gettask wScenario scoreZero lockAll 2 8 true true
            (queue_gettask wScenario scoreZero lockAll 2 8 true true
              (queue_get_incoming wScenario 2
                (queue_insert (queue_insert (queue_insert (queue_insert (queue_init 4) 0) 1) 2) 3))).2).2).2).1
      = some 1) ∧
    wScenario 2 = 9 ∧ wScenario 0 = 5 ∧ wScenario 3 = 3 ∧ wScenario 1 = 1 := by
  decide

theorem get_incoming_sizeOk (w : Nat → Int) (grow : Nat) (q : Queue) (hg : 2 ≤ grow)
    (h : q.tid.length ≤ q.size ∧ 1 ≤ q.size) :
    (queue_get_incoming w grow q).tid.length ≤ (queue_get_incoming w grow q).size ∧
      1 ≤ (queue_get_incoming w grow q).size :=
  drainList_sizeOk w grow hg q.incoming { q with incoming := [] } h

theorem insertDrainFold_inv (w : Nat → Int) (grow : Nat) (hg : 2 ≤ grow) :
    ∀ (ts : List Nat) (q : Queue), isHeap w q.tid → q.incoming = [] →
      q.tid.length ≤ q.size → 1 ≤ q.size →
      isHeap w (ts.foldl (fun q t => queue_get_incoming w grow (queue_insert q t)) q).tid ∧
      (ts.foldl (fun q t => queue_get_incoming w grow (queue_insert q t)) q).incoming = [] ∧
      (ts.foldl (fun q t => queue_get_incoming w grow (queue_insert q t)) q).tid.length
        = q.tid.length + ts.length ∧
      (ts.foldl (fun q t => queue_get_incoming w grow (queue_insert q t)) q).tid.length
        ≤ (ts.foldl (fun q t => queue_get_incoming w grow (queue_insert q t)) q).size ∧
      1 ≤ (ts.foldl (fun q t => queue_get_incoming w grow (queue_insert q t)) q).size ∧
      ((ts.foldl (fun q t => queue_get_incoming w grow (queue_insert q t)) q).tid).Perm
        (q.tid ++ ts) := by
  intro ts
  induction ts with
  | nil =>
    intro q h1 h2 h3 h4
    refine ⟨h1, h2, by simp, h3, h4, by simp⟩
  | cons t ts ih =>
    intro q h1 h2 h3 h4
    have hstep : (t :: ts).foldl (fun q t => queue_get_incoming w grow (queue_insert q t)) q
        = ts.foldl (fun q t => queue_get_incoming w grow (queue_insert q t))
            (queue_get_incoming w grow (queue_insert q t)) := by
      simp
    rw [hstep]
    have hins_tid : (queue_insert q t).tid = q.tid := rfl
    have hins_inc : (queue_insert q t).incoming = q.incoming ++ [t] := rfl
    have hq1_heap : isHeap w (queue_get_incoming w grow (queue_insert q t)).tid :=
      get_incoming_isHeap w grow (queue_insert q t) h1
    have hq1_inc : (queue_get_incoming w grow (queue_insert q t)).incoming = [] :=
      get_incoming_incoming w grow (queue_insert q t)
    have hq1_len : (queue_get_incoming w grow (queue_insert q t)).tid.length
        = q.tid.length + 1 := by
      rw [get_incoming_tid_length, hins_tid, hins_inc, h2]
      simp
    have hq1_size : (queue_get_incoming w grow (queue_insert q t)).tid.length
        ≤ (queue_get_incoming w grow (queue_insert q t)).size ∧
        1 ≤ (queue_get_incoming w grow (queue_insert q t)).size :=
      get_incoming_sizeOk w grow (queue_insert q t) hg ⟨h3, h4⟩
    have hq1_perm : ((queue_get_incoming w grow (queue_insert q t)).tid).Perm
        (q.tid ++ [t]) := by
      have hperm := get_incoming_perm w grow (queue_insert q t)
      rw [hins_tid, hins_inc, h2] at hperm
      simpa using hperm
    obtain ⟨a1, a2, a3, a4, a5, a6⟩ := ih (queue_get_incoming w grow (queue_insert q t))
      hq1_heap hq1_inc hq1_size.1 hq1_size.2
    refine ⟨a1, a2, ?_, a4, a5, ?_⟩
    · rw [a3, hq1_len]
      simp only [List.length_cons]
      omega
    · have hb : ((queue_get_incoming w grow (queue_insert q t)).tid ++ ts).Perm
          ((q.tid ++ [t]) ++ ts) :=
        List.Perm.append_right ts hq1_perm
      have hc : (q.tid ++ [t]) ++ ts = q.tid ++ t :: ts := by simp
      rw [hc] at hb
      exact a6.trans hb

/-- Claim C6: inserting `N` tasks with `N` greater than the initial heap
capacity, each insert followed by a drain, yields a heap of exactly `N`
entries with `size ≥ N` and the heap invariant holding, and every
inserted task is still in the heap (as a permutation of the inserted
list, so each task's weight, a pure function of its index, is
unchanged). -/
theorem claim_growth_correctness (w : Nat → Int) (grow sizeinit : Nat) (ts : List Nat)
    (hg : 2 ≤ grow) (hs : 1 ≤ sizeinit) (hN : sizeinit < ts.length) :
    (ts.foldl (fun q t => queue_get_incoming w grow (queue_insert q t))
        (queue_init sizeinit)).tid.length = ts.length ∧
    ts.length ≤ (ts.foldl (fun q t => queue_get_incoming w grow (queue_insert q t))
        (queue_init sizeinit)).size ∧
    isHeap w (ts.foldl (fun q t => queue_get_incoming w grow (queue_insert q t))
        (queue_init sizeinit)).tid ∧
    ((ts.foldl (fun q t => queue_get_incoming w grow (queue_insert q t))
        (queue_init sizeinit)).tid).Perm ts := by
  obtain ⟨a1, a2, a3, a4, a5, a6⟩ := insertDrainFold_inv w grow hg ts (queue_init sizeinit)
    (by intro k hk hk0; simp [queue_init] at hk) rfl (by show 0 ≤ sizeinit; omega) hs
  have hlen : (ts.foldl (fun q t => queue_get_incoming w grow (queue_insert q t))
      (queue_init sizeinit)).tid.length = ts.length := by
    rw [a3]
    simp [queue_init]
  refine ⟨hlen, ?_, a1, by simpa using a6⟩
  omega

theorem claim_growth_correctness_witness :
    (2 ≤ 2 ∧ 1 ≤ 1 ∧ 1 < ([5, 6, 7] : List Nat).length) ∧
    ((([5, 6, 7] : List Nat).foldl
        (fun q t => queue_get_incoming wScenario 2 (queue_insert q t))
        (queue_init 1)).tid.length = ([5, 6, 7] : List Nat).length ∧
     ([5, 6, 7] : List Nat).length ≤ (([5, 6, 7] : List Nat).foldl
        (fun q t => queue_get_incoming wScenario 2 (queue_insert q t))
        (queue_init 1)).size ∧
     isHeap wScenario (([5, 6, 7] : List Nat).foldl
        (fun q t => queue_get_incoming wScenario 2 (queue_insert q t))
        (queue_init 1)).tid ∧
     ((([5, 6, 7] : List Nat).foldl
        (fun q t => queue_get_incoming wScenario 2 (queue_insert q t))
        (queue_init 1)).tid).Perm [5, 6, 7]) :=
  ⟨by decide,
   claim_growth_correctness wScenario 2 1 [5, 6, 7] (by decide) (by decide) (by decide)⟩

theorem stepQ_total (w score : Nat → Int) (canLock : Nat → Bool) (grow sw : Nat)
    (st : Queue × List Nat) (op : QOp) :
    (stepQ w score canLock grow sw st op).2.length
      + (stepQ w score canLock grow sw st op).1.tid.length
      + (stepQ w score canLock grow sw st op).1.incoming.length
    = st.2.length + st.1.tid.length + st.1.incoming.length
      + insCount op := by
  rcases st with ⟨q, out⟩
  cases op with
  | ins t =>
    show out.length + q.tid.length + (q.incoming ++ [t]).length
      = out.length + q.tid.length + q.incoming.length + insCount (QOp.ins t)
    simp [insCount]
    omega
  | drain =>
    show out.length + (queue_get_incoming w grow q).tid.length
        + (queue_get_incoming w grow q).incoming.length
      = out.length + q.tid.length + q.incoming.length + insCount QOp.drain
    rw [get_incoming_tid_length, get_incoming_incoming]
    simp [insCount]
    omega
  | get =>
    by_cases hz : (queue_get_incoming w grow q).tid.length = 0
    · have hgt : queue_gettask w score canLock grow sw true true q
          = (none, queue_get_incoming w grow q) := by
        unfold queue_gettask
        rw [if_neg (by simp)]
        simp only []
        rw [if_pos hz]
      have hstep : stepQ w score canLock grow sw (q, out) QOp.get
          = (queue_get_incoming w grow q, out) := by
        show (match queue_gettask w score canLock grow sw true true q with
              | (some t, q1) => (q1, out ++ [t])
              | (none, q1) => (q1, out)) = _
        rw [hgt]
      rw [hstep]
      show out.length + (queue_get_incoming w grow q).tid.length
          + (queue_get_incoming w grow q).incoming.length
        = out.length + q.tid.length + q.incoming.length + insCount QOp.get
      rw [get_incoming_tid_length, get_incoming_incoming]
      simp [insCount]
      omega
    · rcases hsel : (selectTask score canLock sw (queue_get_incoming w grow q).tid).1
        with _ | ⟨ti, ind⟩
      · have hgt : queue_gettask w score canLock grow sw true true q
            = (none, queue_get_incoming w grow q) := by
          unfold queue_gettask
          rw [if_neg (by simp)]
          simp only []
          rw [if_neg hz, hsel]
        have hstep : stepQ w score canLock grow sw (q, out) QOp.get
            = (queue_get_incoming w grow q, out) := by
          show (match queue_gettask w score canLock grow sw true true q with
                | (some t, q1) => (q1, out ++ [t])
                | (none, q1) => (q1, out)) = _
          rw [hgt]
        rw [hstep]
        show out.length + (queue_get_incoming w grow q).tid.length
            + (queue_get_incoming w grow q).incoming.length
          = out.length + q.tid.length + q.incoming.length + insCount QOp.get
        rw [get_incoming_tid_length, get_incoming_incoming]
        simp [insCount]
        omega
      · have hgt : queue_gettask w score canLock grow sw true true q
            = (some ti, { queue_get_incoming w grow q with
                tid := removeAt w (queue_get_incoming w grow q).tid ind }) := by
          unfold queue_gettask
          rw [if_neg (by simp)]
          simp only []
          rw [if_neg hz, hsel]
        have hstep : stepQ w score canLock grow sw (q, out) QOp.get
            = ({ queue_get_incoming w grow q with
                tid := removeAt w (queue_get_incoming w grow q).tid ind }, out ++ [ti]) := by
          show (match queue_gettask w score canLock grow sw true true q with
                | (some t, q1) => (q1, out ++ [t])
                | (none, q1) => (q1, out)) = _
          rw [hgt]
        rw [hstep]
        show (out ++ [ti]).length + (removeAt w (queue_get_incoming w grow q).tid ind).length
            + (queue_get_incoming w grow q).incoming.length
          = out.length + q.tid.length + q.incoming.length + insCount QOp.get
        rw [removeAt_length, get_incoming_incoming]
        have hlen := get_incoming_tid_length w grow q
        have hm : insCount QOp.get = 0 := rfl
        rw [hm]
        simp only [List.length_append, List.length_cons, List.length_nil]
        omega

theorem runQ_total (w score : Nat → Int) (canLock : Nat → Bool) (grow sw : Nat) :
    ∀ ops st,
      (runQ w score canLock grow sw st ops).2.length
        + (runQ w score canLock grow sw st ops).1.tid.length
        + (runQ w score canLock grow sw st ops).1.incoming.length
      = st.2.length + st.1.tid.length + st.1.incoming.length + countIns ops := by
  intro ops
  induction ops with
  | nil =>
    intro st
    simp [runQ, countIns]
  | cons op ops ih =>
    intro st
    have h1 : runQ w score canLock grow sw st (op :: ops)
        = runQ w score canLock grow sw (stepQ w score canLock grow sw st op) ops := by
      simp [runQ]
    rw [h1, ih]
    have h2 := stepQ_total w score canLock grow sw st op
    have h3 : countIns (op :: ops) = countIns ops + insCount op := by
      cases op <;> simp [countIns, insCount, List.countP_cons]
    omega

/-- Claim C7: over any sequence of insert, drain, and (blocking, lock
available) `queue_gettask` operations on a queue starting empty, the
number of inserted tasks equals the number of tasks `queue_gettask`
returned plus the number still resident in the queue (heap entries plus
pending incoming entries). -/
theorem claim_conservation (w score : Nat → Int) (canLock : Nat → Bool)
    (grow sw sizeinit : Nat) (ops : List QOp) :
    countIns ops =
      (runQ w score canLock grow sw (queue_init sizeinit, []) ops).2.length
      + (runQ w score canLock grow sw (queue_init sizeinit, []) ops).1.tid.length
      + (runQ w score canLock grow sw (queue_init sizeinit, []) ops).1.incoming.length := by
  have h := runQ_total w score canLock grow sw ops (queue_init sizeinit, [])
  have e1 : ((queue_init sizeinit, ([] : List Nat)).2).length = 0 := rfl
  have e2 : ((queue_init sizeinit, ([] : List Nat)).1).tid.length = 0 := rfl
  have e3 : ((queue_init sizeinit, ([] : List Nat)).1).incoming.length = 0 := rfl
  omega

/-- Claim C8: a non-blocking `queue_gettask` whose trylock on the queue
lock fails returns none at once and leaves the queue state untouched. -/
theorem claim_nonblocking_no_effect (w score : Nat → Int) (canLock : Nat → Bool)
    (grow sw : Nat) (q : Queue) :
    queue_gettask w score canLock grow sw false false q = (none, q) := rfl

/-- Claim C4 counterexample: with the root lighter than its two
equal-weight children (weights 1, 5, 5), `queue_sift_down` does not agree
with the claimed rule in which the right child wins ties against the
left — the source selects the left child. -/
theorem claim_sift_down_tie_counterexample :
    queue_sift_down wTie [0, 1, 2] 0 ≠ siftDownClaim wTie [0, 1, 2] 0 := by decide

/-- Claim C4 (amended): in `queue_sift_down`, at each step the child with
the strictly larger weight is selected, with the LEFT child winning ties
against the right child, and the entry is swapped down if and only if
that selected child's weight is strictly greater than the entry's
weight. -/
theorem claim_sift_down_amended (w : Nat → Int) (l : List Nat) (ind : Nat) :
    queue_sift_down w l ind = siftDownAmend w l ind :=
  siftDownFuel_eq_amend w (w (l.getD ind 0)) l.length l.length l ind

/-- Claim C5: `queue_bubble_up` swaps the entry at the given index with
its parent as long as the entry is not at the root and its weight is ≥
its parent's weight (ties move up), and it returns the entry's final
index: the returned position holds the entry that started at `ind`. -/
theorem claim_bubble_up_spec (w : Nat → Int) (l : List Nat) (ind : Nat) :
    queue_bubble_up w l ind = bubbleUpSpec w l ind ∧
    (ind < l.length →
      (queue_bubble_up w l ind).1.getD (queue_bubble_up w l ind).2 0 = l.getD ind 0) :=
  ⟨bubbleUpFuel_eq_spec w (w (l.getD ind 0)) ind l ind,
   fun h => bubbleUpFuel_entry w (w (l.getD ind 0)) ind l ind h⟩

theorem claim_bubble_up_spec_witness :
    1 < ([0, 1] : List Nat).length ∧
    (queue_bubble_up wScenario [0, 1] 1).1.getD (queue_bubble_up wScenario [0, 1] 1).2 0 =
      ([0, 1] : List Nat).getD 1 0 :=
  ⟨by decide, (claim_bubble_up_spec wScenario [0, 1] 1).2 (by decide)⟩

/-- Claim C10: from any start index inside the heap, `queue_bubble_up`
and `queue_sift_down` return a final index inside the heap and only
rearrange the stored task indices (the multiset of entries is
unchanged). -/
theorem claim_heap_ops_bounds_perm (w : Nat → Int) (l : List Nat) (ind : Nat)
    (h : ind < l.length) :
    (queue_bubble_up w l ind).2 < l.length ∧ ((queue_bubble_up w l ind).1).Perm l ∧
    (queue_sift_down w l ind).2 < l.length ∧ ((queue_sift_down w l ind).1).Perm l :=
  ⟨Nat.lt_of_le_of_lt (bubbleUpFuel_ind_le w (w (l.getD ind 0)) ind l ind) h,
   bubbleUpFuel_perm w (w (l.getD ind 0)) ind l ind h,
   siftDownFuel_ind_lt w (w (l.getD ind 0)) l.length l.length l ind h,
   siftDownFuel_perm w (w (l.getD ind 0)) l.length l.length l ind (Nat.le_refl _)⟩

theorem claim_heap_ops_bounds_perm_witness :
    0 < ([0, 1, 2] : List Nat).length ∧
    ((queue_bubble_up wTie [0, 1, 2] 0).2 < ([0, 1, 2] : List Nat).length ∧
     ((queue_bubble_up wTie [0, 1, 2] 0).1).Perm [0, 1, 2] ∧
     (queue_sift_down wTie [0, 1, 2] 0).2 < ([0, 1, 2] : List Nat).length ∧
     ((queue_sift_down wTie [0, 1, 2] 0).1).Perm [0, 1, 2]) :=
  ⟨by decide, claim_heap_ops_bounds_perm wTie [0, 1, 2] 0 (by decide)⟩

end SwiftQueue
